import Mathlib

/-!
Verification of the RAG retrieval core of the Kyyneko/RAG-LLM-ASSESSMENT
repository, as a shallow embedding in Lean.

Modelling conventions:
* Python floats (similarity and reranker scores, vector components) are
  modelled as exact rationals; every claim proved here is about ordering,
  filtering, counting and data flow, none of which depend on rounding.
* Python strings are modelled as `String` where they are only carried
  around (vector store, retriever), and as `List Char` in the chunker,
  where the claims quantify over the characters of the text.
* `None`-able Python arguments are modelled as `Option`; code that can
  raise is modelled in `Except`.
* The FAISS `IndexFlatIP` is modelled as the list of its stored rows; its
  `search` returns the `k` best inner products in descending order.  The
  caller in `search_with_scores` caps `k` by `len(texts)`, and skips the
  `-1` padding FAISS emits when `k` exceeds `ntotal`; the model returns
  only real hits, which is the same observable behaviour.
-/

/-- Metadata of one chunk: a Python dict, modelled as an association list. -/
def Meta : Type := List (String × String)

instance : DecidableEq Meta := by
  unfold Meta
  infer_instance

/-- The empty metadata dict `{}`. -/
def emptyMeta : Meta := []

/-- One entry of the list returned by `VectorStore.search_with_scores`:
`{"text": ..., "score": ..., "metadata": ...}`. -/
structure SearchResult where
  text : String
  score : ℚ
  meta : Meta
deriving DecidableEq

/-- `rag/vectorstore.py`, class `VectorStore`: a FAISS inner-product index
(`index`), the parallel chunk texts and their metadata. -/
structure VectorStore where
  dim : Nat
  index : List (List ℚ)
  texts : List String
  metadata : List Meta
deriving DecidableEq

/-- `VectorStore.__init__`: a fresh store with an empty index. -/
def VectorStore.init (dim : Nat) : VectorStore :=
  ⟨dim, [], [], []⟩

/-- `VectorStore.add`.  `embeddings is None or len(embeddings) == 0` is a
no-op; a 1-D array would be reshaped into a single row, so the model takes
the rows directly.  `if metadata:` is Python truthiness, hence an empty
metadata list is padded exactly like an omitted one. -/
def VectorStore.add (s : VectorStore) (embeddings : Option (List (List ℚ)))
    (texts : List String) (metadata : Option (List Meta)) : VectorStore :=
  match embeddings with
  | none => s
  | some rows =>
    if rows.isEmpty then s
    else
      { s with
        index := s.index ++ rows,
        texts := s.texts ++ texts,
        metadata := s.metadata ++
          (match metadata with
           | some l => if l.isEmpty then List.replicate texts.length emptyMeta else l
           | none => List.replicate texts.length emptyMeta) }

/-- Descending order on `(score, row id)` pairs, the order in which FAISS
returns search hits. -/
abbrev hitGE (a b : ℚ × Nat) : Prop := b.1 ≤ a.1

instance : IsTotal (ℚ × Nat) hitGE :=
  ⟨fun a b => le_total b.1 a.1⟩

instance : IsTrans (ℚ × Nat) hitGE :=
  ⟨fun _ _ _ hab hbc => le_trans hbc hab⟩

/-- Inner product of two vectors, the similarity of `faiss.IndexFlatIP`. -/
def dotQ (u v : List ℚ) : ℚ :=
  (List.zipWith (fun a b => a * b) u v).sum

/-- `index.search(query, k)`: the `k` largest inner products with their
row ids, in descending score order. -/
def faissSearch (index : List (List ℚ)) (q : List ℚ) (k : Nat) : List (ℚ × Nat) :=
  (List.insertionSort hitGE (index.enum.map (fun p => (dotQ q p.2, p.1)))).take k

/-- Metadata filtering in `search_with_scores`: `filter_fn is None or filter_fn(meta)`. -/
def passesFilter (filterFn : Option (Meta → Bool)) (m : Meta) : Bool :=
  match filterFn with
  | none => true
  | some f => f m

/-- Builds the result dict for one accepted hit. -/
def resultOf (texts : List String) (metadata : List Meta) (h : ℚ × Nat) : SearchResult :=
  ⟨texts.getD h.2 "", h.1, metadata.getD h.2 emptyMeta⟩

/-- The result-collection loop of `search_with_scores`: append each hit that
passes the bound check and the filter, and `break` as soon as `top_k`
results have been collected.  `taken` is `len(results)` so far. -/
def searchLoop (texts : List String) (metadata : List Meta)
    (filterFn : Option (Meta → Bool)) (topK : Nat) :
    List (ℚ × Nat) → Nat → List SearchResult
  | [], _ => []
  | h :: rest, taken =>
    if h.2 < texts.length ∧ passesFilter filterFn (metadata.getD h.2 emptyMeta) = true then
      if topK ≤ taken + 1 then [resultOf texts metadata h]
      else resultOf texts metadata h :: searchLoop texts metadata filterFn topK rest (taken + 1)
    else searchLoop texts metadata filterFn topK rest taken

/-- `VectorStore.search_with_scores`: over-fetch `top_k * 4` candidates when
a filter is supplied, cap at the corpus size, then collect results. -/
def VectorStore.search_with_scores (s : VectorStore) (queryVector : List ℚ)
    (topK : Nat) (filterFn : Option (Meta → Bool)) : List SearchResult :=
  if min (if filterFn.isSome then topK * 4 else topK) s.texts.length = 0 then []
  else searchLoop s.texts s.metadata filterFn topK
    (faissSearch s.index queryVector
      (min (if filterFn.isSome then topK * 4 else topK) s.texts.length)) 0

/-- `VectorStore.search`: backward compatible wrapper returning texts only. -/
def VectorStore.search (s : VectorStore) (queryVector : List ℚ) (topK : Nat) : List String :=
  (s.search_with_scores queryVector topK none).map (fun r => r.text)

/-- The pair of artifacts written by `save_to_disk`: the FAISS index file
and the pickled `{texts, metadata, dim}` dict.  `metadata` is an `Option`
because `load_from_disk` reads it with `data.get('metadata', [])`. -/
structure SavedData where
  texts : List String
  metadata : Option (List Meta)
  dim : Nat

/-- `VectorStore.save_to_disk`: serialize the index and the data bundle. -/
def VectorStore.save_to_disk (s : VectorStore) : List (List ℚ) × SavedData :=
  (s.index, ⟨s.texts, some s.metadata, s.dim⟩)

/-- `VectorStore.load_from_disk`: rebuild an instance from the two artifacts. -/
def VectorStore.load_from_disk (indexFile : List (List ℚ)) (data : SavedData) : VectorStore :=
  { dim := data.dim, index := indexFile, texts := data.texts,
    metadata := data.metadata.getD [] }

/-- The dict returned by `VectorStore.get_stats`. -/
structure Stats where
  dimension : Nat
  total_vectors : Nat
  total_texts : Nat
  has_metadata : Bool
deriving DecidableEq

/-- `VectorStore.get_stats`. -/
def VectorStore.get_stats (s : VectorStore) : Stats :=
  ⟨s.dim, s.index.length, s.texts.length, decide (0 < s.metadata.length)⟩

/-- Alignment invariant of the store: texts, metadata and the index rows
are positionally aligned. -/
def VectorStore.aligned (s : VectorStore) : Prop :=
  s.texts.length = s.metadata.length ∧ s.index.length = s.texts.length

/-- One recorded call to `VectorStore.add`. -/
structure AddCall where
  embeddings : Option (List (List ℚ))
  texts : List String
  metadata : Option (List Meta)

/-- The per-call hypothesis of the alignment claim: the embedding rows
match the texts, and a supplied metadata list matches them too. -/
def goodCall (c : AddCall) : Bool :=
  match c.embeddings with
  | none => true
  | some rows =>
    rows.length == c.texts.length &&
      (match c.metadata with
       | none => true
       | some l => l.length == c.texts.length)

/-- Replays one recorded `add` call. -/
def applyCall (s : VectorStore) (c : AddCall) : VectorStore :=
  s.add c.embeddings c.texts c.metadata

/-- Replays a sequence of `add` calls in order. -/
def applyCalls (s : VectorStore) (calls : List AddCall) : VectorStore :=
  calls.foldl applyCall s

theorem add_aligned (s : VectorStore) (c : AddCall) (hs : s.aligned)
    (hc : goodCall c = true) : (applyCall s c).aligned := by
  obtain ⟨h1, h2⟩ := hs
  cases c with
  | mk emb texts md =>
    cases emb with
    | none => exact ⟨h1, h2⟩
    | some rows =>
      by_cases he : rows.isEmpty
      · have hid : applyCall s ⟨some rows, texts, md⟩ = s := by
          simp [applyCall, VectorStore.add, he]
        rw [hid]
        exact ⟨h1, h2⟩
      · simp only [goodCall, Bool.and_eq_true, beq_iff_eq] at hc
        obtain ⟨hrows, hmd⟩ := hc
        cases md with
        | none =>
          have hrec : applyCall s ⟨some rows, texts, none⟩ =
              { s with
                index := s.index ++ rows,
                texts := s.texts ++ texts,
                metadata := s.metadata ++ List.replicate texts.length emptyMeta } := by
            simp [applyCall, VectorStore.add, he]
          rw [hrec]
          exact ⟨by simp [h1], by simp [h2, hrows]⟩
        | some l =>
          have hl2 : l.length = texts.length := by simpa using hmd
          by_cases hl : l.isEmpty
          · have hrec : applyCall s ⟨some rows, texts, some l⟩ =
                { s with
                  index := s.index ++ rows,
                  texts := s.texts ++ texts,
                  metadata := s.metadata ++ List.replicate texts.length emptyMeta } := by
              simp [applyCall, VectorStore.add, he, hl]
            rw [hrec]
            exact ⟨by simp [h1], by simp [h2, hrows]⟩
          · have hrec : applyCall s ⟨some rows, texts, some l⟩ =
                { s with
                  index := s.index ++ rows,
                  texts := s.texts ++ texts,
                  metadata := s.metadata ++ l } := by
              simp [applyCall, VectorStore.add, he, hl]
            rw [hrec]
            exact ⟨by simp [h1, hl2], by simp [h2, hrows]⟩

theorem applyCalls_aligned (s : VectorStore) (calls : List AddCall) (hs : s.aligned)
    (hg : ∀ c ∈ calls, goodCall c = true) : (applyCalls s calls).aligned := by
  induction calls generalizing s with
  | nil => exact hs
  | cons c rest ih =>
    have := add_aligned s c hs (hg c (List.mem_cons_self c rest))
    exact ih (applyCall s c) this (fun d hd => hg d (List.mem_cons_of_mem c hd))

/-- Claim C3: starting from a fresh store, after every call of a sequence of
`add` calls whose embedding rows match their texts (and whose supplied
metadata lists match them too), `len(texts) == len(metadata) == index.ntotal`
holds; an omitted metadata argument is padded with one empty dict per text,
and an `add` with `None` or empty embeddings leaves the store unchanged. -/
theorem spec_C3_alignment (dim : Nat) (calls : List AddCall)
    (hg : ∀ c ∈ calls, goodCall c = true) :
    (∀ n, (applyCalls (VectorStore.init dim) (calls.take n)).aligned)
    ∧ (∀ (s : VectorStore) (texts : List String) (md : Option (List Meta)),
        s.add none texts md = s ∧ s.add (some []) texts md = s)
    ∧ (∀ (s : VectorStore) (rows : List (List ℚ)) (texts : List String), rows ≠ [] →
        (s.add (some rows) texts none).texts = s.texts ++ texts
        ∧ (s.add (some rows) texts none).metadata
            = s.metadata ++ List.replicate texts.length emptyMeta) := by
  refine ⟨fun n => ?_, fun s texts md => ⟨rfl, by simp [VectorStore.add]⟩,
    fun s rows texts hr => ?_⟩
  · refine applyCalls_aligned _ _ ⟨rfl, rfl⟩ (fun c hc => ?_)
    exact hg c (List.mem_of_mem_take hc)
  · have he : rows.isEmpty = false := by
      cases rows with
      | nil => exact absurd rfl hr
      | cons a l => rfl
    constructor
    · simp [VectorStore.add, he]
    · simp [VectorStore.add, he]

/-- Witness for C3 at a concrete two-call sequence. -/
theorem spec_C3_witness :
    (∀ n, (applyCalls (VectorStore.init 2)
        ([⟨some [[1, 0], [0, 1]], ["a", "b"], none⟩,
          ⟨none, ["c"], some [[("k", "v")]]⟩].take n)).aligned)
    ∧ (∀ (s : VectorStore) (texts : List String) (md : Option (List Meta)),
        s.add none texts md = s ∧ s.add (some []) texts md = s)
    ∧ (∀ (s : VectorStore) (rows : List (List ℚ)) (texts : List String), rows ≠ [] →
        (s.add (some rows) texts none).texts = s.texts ++ texts
        ∧ (s.add (some rows) texts none).metadata
            = s.metadata ++ List.replicate texts.length emptyMeta) :=
  spec_C3_alignment 2 _ (by decide)

/-- Descending order on search results, by score. -/
abbrev resGE (a b : SearchResult) : Prop := b.score ≤ a.score

theorem searchLoop_eq (texts : List String) (md : List Meta)
    (fl : Option (Meta → Bool)) (topK : Nat) :
    ∀ (hits : List (ℚ × Nat)) (taken : Nat), taken < topK →
      searchLoop texts md fl topK hits taken
        = ((hits.filter (fun h =>
              decide (h.2 < texts.length ∧ passesFilter fl (md.getD h.2 emptyMeta) = true))).take
            (topK - taken)).map (resultOf texts md) := by
  intro hits
  induction hits with
  | nil => intro taken _; simp [searchLoop]
  | cons h rest ih =>
    intro taken htaken
    simp only [List.filter_cons, decide_eq_true_eq]
    by_cases hcond : h.2 < texts.length ∧ passesFilter fl (md.getD h.2 emptyMeta) = true
    · rw [if_pos hcond]
      by_cases htop : topK ≤ taken + 1
      · have hk : topK - taken = 1 := by omega
        rw [searchLoop, if_pos hcond, if_pos htop, hk]
        simp
      · have hk : topK - taken = (topK - (taken + 1)) + 1 := by omega
        rw [searchLoop, if_pos hcond, if_neg htop, ih (taken + 1) (by omega), hk]
        simp [List.take_succ_cons]
    · rw [if_neg hcond, searchLoop, if_neg hcond, ih taken htaken]

theorem faissSearch_sorted (index : List (List ℚ)) (q : List ℚ) (k : Nat) :
    List.Pairwise hitGE (faissSearch index q k) :=
  List.Pairwise.sublist (List.take_sublist _ _) (List.sorted_insertionSort hitGE _)

theorem faissSearch_length_le (index : List (List ℚ)) (q : List ℚ) (k : Nat) :
    (faissSearch index q k).length ≤ k := by
  simp only [faissSearch]
  exact (List.length_take _ _).trans_le (Nat.min_le_left _ _)

/-- Claim C4: `search_with_scores` returns at most `min(topK, len(texts))`
results, in descending score order, an empty store yields the empty list,
and with a filter it fetches `min(topK * 4, len(texts))` candidates, keeps
the passing ones and truncates to the first `topK` accepted. -/
theorem spec_C4_search (s : VectorStore) (q : List ℚ) (topK : Nat) :
    (∀ fl, (s.search_with_scores q topK fl).length ≤ min topK s.texts.length)
    ∧ (∀ fl, List.Pairwise resGE (s.search_with_scores q topK fl))
    ∧ (∀ fl, s.texts = [] → s.search_with_scores q topK fl = [])
    ∧ (∀ f : Meta → Bool,
        s.search_with_scores q topK (some f)
          = (((faissSearch s.index q (min (topK * 4) s.texts.length)).filter
                (fun h => decide (h.2 < s.texts.length
                  ∧ passesFilter (some f) (s.metadata.getD h.2 emptyMeta) = true))).take
              topK).map (resultOf s.texts s.metadata)) := by
  have key : ∀ fl, min (if Option.isSome fl then topK * 4 else topK) s.texts.length ≠ 0 →
      s.search_with_scores q topK fl
        = (((faissSearch s.index q
              (min (if Option.isSome fl then topK * 4 else topK) s.texts.length)).filter
              (fun h => decide (h.2 < s.texts.length
                ∧ passesFilter fl (s.metadata.getD h.2 emptyMeta) = true))).take
            topK).map (resultOf s.texts s.metadata) := by
    intro fl hk
    have htop : 0 < topK := by
      rcases Nat.eq_zero_or_pos topK with h0 | h0
      · exfalso
        apply hk
        subst h0
        cases hfl : Option.isSome fl <;> simp [hfl]
      · exact h0
    rw [VectorStore.search_with_scores, if_neg hk, searchLoop_eq _ _ _ _ _ 0 htop,
      Nat.sub_zero]
  refine ⟨fun fl => ?_, fun fl => ?_, fun fl he => ?_, fun f => ?_⟩
  · by_cases hk : min (if Option.isSome fl then topK * 4 else topK) s.texts.length = 0
    · rw [VectorStore.search_with_scores, if_pos hk]
      exact Nat.zero_le _
    · rw [key fl hk]
      refine le_min ?_ ?_
      · simp
      · simp only [List.length_map]
        calc (((faissSearch s.index q _).filter _).take topK).length
            ≤ ((faissSearch s.index q _).filter _).length :=
              (List.take_sublist _ _).length_le
          _ ≤ (faissSearch s.index q _).length := (List.filter_sublist _).length_le
          _ ≤ min (if Option.isSome fl then topK * 4 else topK) s.texts.length :=
              faissSearch_length_le _ _ _
          _ ≤ s.texts.length := Nat.min_le_right _ _
  · by_cases hk : min (if Option.isSome fl then topK * 4 else topK) s.texts.length = 0
    · rw [VectorStore.search_with_scores, if_pos hk]
      exact List.Pairwise.nil
    · rw [key fl hk]
      refine List.pairwise_map.mpr ?_
      have hs : List.Pairwise hitGE
          (((faissSearch s.index q
              (min (if Option.isSome fl then topK * 4 else topK) s.texts.length)).filter
            (fun h => decide (h.2 < s.texts.length
              ∧ passesFilter fl (s.metadata.getD h.2 emptyMeta) = true))).take topK) :=
        List.Pairwise.sublist ((List.take_sublist _ _).trans (List.filter_sublist _))
          (faissSearch_sorted _ _ _)
      exact hs.imp (fun h => h)
  · rw [VectorStore.search_with_scores, if_pos (by simp [he])]
  · by_cases hk : min (topK * 4) s.texts.length = 0
    · rw [VectorStore.search_with_scores]
      have : min (if Option.isSome (some f) then topK * 4 else topK) s.texts.length = 0 := by
        simpa using hk
      rw [if_pos this]
      have h0 : faissSearch s.index q (min (topK * 4) s.texts.length) = [] := by
        rw [hk, faissSearch, List.take_zero]
      rw [h0]
      simp
    · have := key (some f) (by simpa using hk)
      simpa using this

/-- Claim C5: `save_to_disk` followed by `load_from_disk` reproduces a store
with identical `get_stats` and identical search results for every probe
query, `topK` and filter. -/
theorem spec_C5_roundtrip (s : VectorStore) :
    (VectorStore.load_from_disk (s.save_to_disk).1 (s.save_to_disk).2).get_stats = s.get_stats
    ∧ (∀ q topK fl,
        (VectorStore.load_from_disk (s.save_to_disk).1 (s.save_to_disk).2).search_with_scores
          q topK fl = s.search_with_scores q topK fl)
    ∧ (∀ q topK,
        (VectorStore.load_from_disk (s.save_to_disk).1 (s.save_to_disk).2).search q topK
          = s.search q topK) := by
  have he : VectorStore.load_from_disk (s.save_to_disk).1 (s.save_to_disk).2 = s := by
    cases s
    rfl
  rw [he]
  exact ⟨rfl, fun _ _ _ => rfl, fun _ _ => rfl⟩

/-- Whitespace as recognised by Python `str.strip` and `str.split` (the
ASCII cases that occur in the repository). -/
def isWS (c : Char) : Bool := c.isWhitespace

/-- Python `str.strip()` on a character list: drop leading and trailing
whitespace. -/
def pyStrip (l : List Char) : List Char :=
  ((l.dropWhile isWS).reverse.dropWhile isWS).reverse

/-- Python `str.strip()` on a string. -/
def pyStripS (s : String) : String :=
  String.mk (pyStrip s.toList)

/-- One retrieval result dict of `retrieve_context_with_reranking`; the
optional fields model the keys the code adds during reranking. -/
structure RItem where
  text : String
  score : ℚ
  metadata : Meta
  original_score : Option ℚ
  rerank_score : Option ℚ
  reranked : Bool
deriving DecidableEq

/-- Lifts a raw search result into a retrieval candidate dict. -/
def toRItem (r : SearchResult) : RItem :=
  ⟨r.text, r.score, r.meta, none, none, false⟩

/-- One dict returned by `CrossEncoderReranker.rerank`. -/
structure RRItem where
  text : String
  score : ℚ
  reranked : Bool
deriving DecidableEq

/-- Default used for the (never reached) out-of-range index case of
`reranked_results[i]`. -/
def rrDefault : RRItem := ⟨"", 0, false⟩

/-- Descending order on rerank results, by score. -/
abbrev rrGE (a b : RRItem) : Prop := b.score ≤ a.score

instance : IsTotal RRItem rrGE :=
  ⟨fun a b => le_total b.score a.score⟩

instance : IsTrans RRItem rrGE :=
  ⟨fun _ _ _ hab hbc => le_trans hbc hab⟩

/-- Descending order on retrieval candidates, by the active score. -/
abbrev riGE (a b : RItem) : Prop := b.score ≤ a.score

instance : IsTotal RItem riGE :=
  ⟨fun a b => le_total b.score a.score⟩

instance : IsTrans RItem riGE :=
  ⟨fun _ _ _ hab hbc => le_trans hbc hab⟩

/-- `rag/retriever.py`, class `CrossEncoderReranker`.  `is_loaded` is the
`is_available()` flag; `score` is the loaded model as a pure scoring
function of a `(query, document)` pair; `predict_ok = false` models
`self.model.predict(pairs)` raising, which the method catches itself. -/
structure CrossEncoderReranker where
  is_loaded : Bool
  score : String → String → ℚ
  predict_ok : Bool

/-- `CrossEncoderReranker.rerank`: score every `[query, doc]` pair, sort
descending, truncate to `top_k`; if the model is not loaded, the document
list is empty or `predict` raises, fall back to the original order with a
constant score of `0.5`. -/
def CrossEncoderReranker.rerank (r : CrossEncoderReranker) (query : String)
    (documents : List String) (top_k : Nat) : List RRItem :=
  if !r.is_loaded || documents.isEmpty then
    documents.map (fun d => ⟨d, 1/2, false⟩)
  else if r.predict_ok then
    (List.insertionSort rrGE (documents.map (fun d => ⟨d, r.score query d, true⟩))).take top_k
  else
    documents.map (fun d => ⟨d, 1/2, false⟩)

/-- The optional explicitly injected reranker (legacy path); `predict_ok =
false` models `reranker.predict(pairs)` raising. -/
structure ManualReranker where
  score : String → String → ℚ
  predict_ok : Bool

/-- `retrieve_context_with_reranking`.  The process-wide singleton returned
by `get_cross_encoder_reranker` is passed as `ce` (the getter always
returns an instance, so the guard `cross_encoder_reranker and
cross_encoder_reranker.is_available()` reduces to `is_loaded`).  The
embedder may raise, which propagates.  `rerank` is called with
`top_k = len(candidates)` and therefore always returns exactly
`len(candidates)` results, so the positional read `reranked_results[i]`
never raises; it is modelled with `getD`. -/
def retrieve_context_with_reranking (vectorstore : VectorStore)
    (embedder : String → Except Unit (List ℚ)) (query : String)
    (top_k initial_k : Nat) (score_threshold : ℚ)
    (reranker : Option ManualReranker) (ce : CrossEncoderReranker) :
    Except Unit (List RItem) :=
  if query = "" ∨ pyStripS query = "" then Except.ok []
  else
    match embedder query with
    | Except.error e => Except.error e
    | Except.ok query_vec =>
      let candidates := (vectorstore.search_with_scores query_vec initial_k none).map toRItem
      if candidates.isEmpty then Except.ok []
      else
        let reranked :=
          if ce.is_loaded then
            let reranked_results :=
              ce.rerank query (candidates.map (fun c => c.text)) candidates.length
            let updated := candidates.enum.map (fun p =>
              { p.2 with
                original_score := some p.2.score,
                rerank_score := some (reranked_results.getD p.1 rrDefault).score,
                score := (reranked_results.getD p.1 rrDefault).score,
                reranked := true })
            List.insertionSort riGE updated
          else
            match reranker with
            | some r =>
              if r.predict_ok then
                let updated := candidates.map (fun c =>
                  { c with
                    rerank_score := some (r.score query c.text),
                    original_score := some c.score,
                    score := r.score query c.text,
                    reranked := true })
                List.insertionSort riGE updated
              else candidates
            | none => candidates
        Except.ok ((reranked.filter (fun c => score_threshold ≤ c.score)).take top_k)

instance : DecidableEq (Except Unit (List RItem)) := fun a b =>
  match a, b with
  | Except.ok x, Except.ok y => decidable_of_iff (x = y) (by simp)
  | Except.error x, Except.error y => decidable_of_iff (x = y) (by simp)
  | Except.ok _, Except.error _ => isFalse (by simp)
  | Except.error _, Except.ok _ => isFalse (by simp)

/-- Claim C2: every result returned by `retrieve_context_with_reranking`
has `score >= score_threshold`, and at most `top_k` results are returned,
for every store, embedder, query, reranker availability and parameters. -/
theorem spec_C2_threshold (vs : VectorStore) (emb : String → Except Unit (List ℚ))
    (query : String) (top_k initial_k : Nat) (th : ℚ)
    (rr : Option ManualReranker) (ce : CrossEncoderReranker) (l : List RItem)
    (h : retrieve_context_with_reranking vs emb query top_k initial_k th rr ce
      = Except.ok l) :
    (∀ r ∈ l, th ≤ r.score) ∧ l.length ≤ top_k := by
  rw [retrieve_context_with_reranking] at h
  by_cases hq : query = "" ∨ pyStripS query = ""
  · rw [if_pos hq] at h
    cases h
    exact ⟨fun r hr => absurd hr (List.not_mem_nil r), by simp⟩
  · rw [if_neg hq] at h
    cases he : emb query with
    | error e => rw [he] at h; cases h
    | ok qv =>
      rw [he] at h
      by_cases hc : ((vs.search_with_scores qv initial_k none).map toRItem).isEmpty
      · simp only [hc, if_true] at h
        cases h
        exact ⟨fun r hr => absurd hr (List.not_mem_nil r), by simp⟩
      · simp only [hc, if_false] at h
        cases h
        constructor
        · intro r hr
          have hr2 := List.mem_of_mem_take hr
          have := (List.mem_filter.mp hr2).2
          exact of_decide_eq_true this
        · exact (List.length_take _ _).trans_le (Nat.min_le_left _ _)

/-- Witness for C2 on a concrete empty store. -/
theorem spec_C2_witness :
    (∀ r ∈ ([] : List RItem), (3 : ℚ)/10 ≤ r.score) ∧ ([] : List RItem).length ≤ 5 :=
  spec_C2_threshold (VectorStore.init 1) (fun _ => Except.ok [1]) "query" 5 20 (3/10)
    none ⟨false, fun _ _ => 0, true⟩ [] (by decide)

/-- Claim C9: an empty or whitespace-only query makes
`retrieve_context_with_reranking` return the empty list without raising,
for every embedder and store, including an embedder that always raises and
an arbitrary store, so neither is ever consulted. -/
theorem spec_C9_blank (query : String) (hq : query = "" ∨ pyStripS query = "")
    (vs : VectorStore) (emb : String → Except Unit (List ℚ)) (top_k initial_k : Nat)
    (th : ℚ) (rr : Option ManualReranker) (ce : CrossEncoderReranker) :
    retrieve_context_with_reranking vs emb query top_k initial_k th rr ce
      = Except.ok [] := by
  rw [retrieve_context_with_reranking, if_pos hq]

/-- Witness for C9: a whitespace query with an embedder that always raises. -/
theorem spec_C9_witness :
    retrieve_context_with_reranking (VectorStore.init 1) (fun _ => Except.error ()) "  "
      5 20 (3/10) none ⟨false, fun _ _ => 0, true⟩ = Except.ok [] :=
  spec_C9_blank "  " (Or.inr (by decide)) (VectorStore.init 1) (fun _ => Except.error ())
    5 20 (3/10) none ⟨false, fun _ _ => 0, true⟩

/-- Claim C10: whenever the process-wide CrossEncoder singleton reports
itself available, the output of `retrieve_context_with_reranking` is the
same for every value of the injected `reranker` argument: the injected
reranker is only consulted when the singleton is unavailable. -/
theorem spec_C10_injected (vs : VectorStore) (emb : String → Except Unit (List ℚ))
    (query : String) (top_k initial_k : Nat) (th : ℚ) (ce : CrossEncoderReranker)
    (hce : ce.is_loaded = true) (r1 r2 : Option ManualReranker) :
    retrieve_context_with_reranking vs emb query top_k initial_k th r1 ce
      = retrieve_context_with_reranking vs emb query top_k initial_k th r2 ce := by
  rw [retrieve_context_with_reranking, retrieve_context_with_reranking]
  by_cases hq : query = "" ∨ pyStripS query = ""
  · rw [if_pos hq, if_pos hq]
  · rw [if_neg hq, if_neg hq]
    cases emb query with
    | error e => rfl
    | ok qv => simp only [hce, if_true]

/-- Witness for C10 at a concrete input with two different injected rerankers. -/
theorem spec_C10_witness :
    retrieve_context_with_reranking ⟨1, [[2], [1]], ["A", "B"], [[], []]⟩
        (fun _ => Except.ok [1]) "q" 5 20 (3/10) none ⟨true, fun _ _ => 1, true⟩
      = retrieve_context_with_reranking ⟨1, [[2], [1]], ["A", "B"], [[], []]⟩
        (fun _ => Except.ok [1]) "q" 5 20 (3/10) (some ⟨fun _ _ => 9, true⟩)
        ⟨true, fun _ _ => 1, true⟩ :=
  spec_C10_injected ⟨1, [[2], [1]], ["A", "B"], [[], []]⟩ (fun _ => Except.ok [1]) "q"
    5 20 (3/10) ⟨true, fun _ _ => 1, true⟩ rfl none (some ⟨fun _ _ => 9, true⟩)

/-- Concrete singleton reranker for the C1 evaluation: it scores the text
`"A"` at `1` and every other text at `7`. -/
def ceBug : CrossEncoderReranker :=
  ⟨true, fun _ d => if d = "A" then 1 else 7, true⟩

/-- Concrete store for the C1 evaluation: two chunks, `"A"` with the higher
similarity to the probe query and `"B"` with the lower one. -/
def vsBug : VectorStore :=
  ⟨1, [[2], [1]], ["A", "B"], [[], []]⟩

/-- Claim C1, evaluated at a failing input.  The cross-encoder scores the
pair `(q, "A")` at `1` and `(q, "B")` at `7`, yet the code returns the
candidate `"A"` first carrying `rerank_score = 7` — the score of `"B"` —
because `CrossEncoderReranker.rerank` returns its results sorted by score
while the caller reads them back positionally (`reranked_results[i]`)
against the similarity-ordered candidate list.  Consequently each
candidate receives the i-th highest rerank score instead of the score of
its own `(query, text)` pair, and the final sort never changes the
stage-1 similarity order: the claim fails on this input. -/
theorem spec_C1_bug_eval :
    retrieve_context_with_reranking vsBug (fun _ => Except.ok [1]) "q" 5 20 0 none ceBug
      = Except.ok
          [⟨"A", 7, [], some 2, some 7, true⟩,
           ⟨"B", 1, [], some 1, some 1, true⟩]
    ∧ ceBug.score "q" "A" = 1
    ∧ ceBug.score "q" "B" = 7 := by
  have harg : min (if (none : Option (Meta → Bool)).isSome then 20 * 4 else 20)
      vsBug.texts.length = 2 := by decide
  have hfs : faissSearch vsBug.index [1] 2 = [(2, 0), (1, 1)] := by
    norm_num [faissSearch, vsBug, dotQ, List.enum, List.enumFrom, List.take]
  have hsearch : vsBug.search_with_scores [1] 20 none = [⟨"A", 2, []⟩, ⟨"B", 1, []⟩] := by
    rw [VectorStore.search_with_scores, harg, if_neg (by decide : ¬(2 = 0)), hfs]
    decide
  refine ⟨?_, by decide, by decide⟩
  rw [retrieve_context_with_reranking,
    if_neg (by decide : ¬("q" = "" ∨ pyStripS "q" = ""))]
  simp only [hsearch]
  decide

/-- The metadata dict built by `build_vectorstore_for_subject` and
`_build_vectorstore_from_db` (`subject_id`, constant over one call, is
omitted).  `cached` is `None` on the cache-reuse path, where the key is
absent from the dict. -/
structure PipeMeta where
  from_cache : Bool
  docs_processed : Nat
  chunks_indexed : Nat
  failed_files : List String
  cached : Option Bool
deriving DecidableEq

/-- Error surfaced by `build_vectorstore_for_subject`: a database error
re-raised by `_build_vectorstore_from_db`, or the PyMySQL
`err.Error("Already closed")` raised by `Connection.close()` on an
already-closed connection. -/
inductive PipeError where
  | alreadyClosed : PipeError
  | dbError : PipeError
deriving DecidableEq

/-- The PyMySQL connection opened by `build_vectorstore_for_subject`
(`db/connection.py` returns a raw `pymysql.connect(...)` connection);
only whether it has been closed matters here. -/
structure DbConn where
  closed : Bool
deriving DecidableEq

/-- PyMySQL `Connection.close()`: raises `err.Error("Already closed")`
when the connection is already closed, otherwise marks it closed. -/
def DbConn.close (c : DbConn) : Except PipeError DbConn :=
  if c.closed then Except.error PipeError.alreadyClosed
  else Except.ok ⟨true⟩

/-- The external environment of one `build_vectorstore_for_subject` call:
the cache files on disk, the registry count of un-indexed documents, the
outcome of `VectorStore.load_from_disk` (`none` models the raised
exception), the outcome of the full rebuild `_build_vectorstore_from_db`
(which opens and closes its own connection and re-raises database
errors), and whether `save_to_disk` succeeds. -/
structure PipelineEnv where
  cache_files_exist : Bool
  new_docs_count : Nat
  load_result : Option VectorStore
  build_result : Except PipeError (VectorStore × PipeMeta)
  save_ok : Bool

/-- The rebuild tail of `build_vectorstore_for_subject`: run the full
rebuild, then try to persist it; a save failure only flips the `cached`
flag and is not surfaced. -/
def rebuildAndCache (env : PipelineEnv) : Except PipeError (VectorStore × PipeMeta) :=
  match env.build_result with
  | Except.error e => Except.error e
  | Except.ok (vs, m) => Except.ok (vs, { m with cached := some env.save_ok })

/-- `rag/pipeline.py`, `build_vectorstore_for_subject`.  When the cache
files exist, a fresh connection is opened and the registry is queried.
With zero un-indexed documents the connection is closed (line 132) before
the load attempt; a successful load returns the cached store, while a
load exception only prints a warning, so control falls out of the cursor
block to the second `conn.close()` at line 146, now on an already-closed
connection.  With un-indexed documents the line-146 close is the first
one and the rebuild runs. -/
def build_vectorstore_for_subject (env : PipelineEnv) (use_cache : Bool) :
    Except PipeError (VectorStore × PipeMeta) :=
  if use_cache && env.cache_files_exist then
    if env.new_docs_count = 0 then
      match DbConn.close ⟨false⟩ with
      | Except.error e => Except.error e
      | Except.ok conn2 =>
        match env.load_result with
        | some vs => Except.ok (vs, ⟨true, 0, vs.texts.length, [], none⟩)
        | none =>
          match conn2.close with
          | Except.error e => Except.error e
          | Except.ok _ => rebuildAndCache env
    else
      match DbConn.close ⟨false⟩ with
      | Except.error e => Except.error e
      | Except.ok _ => rebuildAndCache env
  else rebuildAndCache env

/-- Claim C8, evaluated on the claimed scenario: cache files exist, the
registry reports zero un-indexed documents, and `load_from_disk` raises.
The code then raises PyMySQL `err.Error("Already closed")` from the
second `conn.close()` (pipeline.py line 146; the connection was already
closed at line 132 before the load attempt), for every rebuild outcome:
the exception is surfaced to the caller and `_build_vectorstore_from_db`
is never reached.  The except handler itself prints
"Cache loading gagal: ... Rebuilding...", announcing the rebuild that
never happens, so the claim states the intent and the double close is a
slip in the code. -/
theorem spec_C8_double_close (env : PipelineEnv)
    (hc : env.cache_files_exist = true) (hn : env.new_docs_count = 0)
    (hl : env.load_result = none) :
    build_vectorstore_for_subject env true
      = Except.error PipeError.alreadyClosed := by
  rw [build_vectorstore_for_subject]
  simp [hc, hn, hl, DbConn.close]

/-- Concrete environment for the C8 witness: cache files present, zero
un-indexed documents, failing disk load, a rebuild that would succeed. -/
def envPipeW : PipelineEnv :=
  ⟨true, 0, none, Except.ok (VectorStore.init 3, ⟨false, 1, 2, [], none⟩), false⟩

/-- Witness for C8 at the concrete environment. -/
theorem spec_C8_double_close_witness :
    build_vectorstore_for_subject envPipeW true
      = Except.error PipeError.alreadyClosed :=
  spec_C8_double_close envPipeW rfl rfl rfl

/-- Maximal runs of characters agreeing on `isWS`, in order: the grouping a
left-to-right regex scan sees.  Joined, the runs give back the input. -/
def charRuns : List Char → List (List Char)
  | [] => []
  | c :: rest =>
    match charRuns rest with
    | (d :: g) :: gs =>
      if isWS c == isWS d then (c :: d :: g) :: gs else [c] :: (d :: g) :: gs
    | gs => [c] :: gs

/-- Whether a run is a whitespace run (runs are homogeneous). -/
def isWSRun : List Char → Bool
  | c :: _ => isWS c
  | [] => false

/-- `[A-Z]` of the sentence-splitting regex. -/
def isUpper (c : Char) : Bool := 'A' ≤ c && c ≤ 'Z'

/-- The lookbehind `(?<=[.!?])` of the sentence-splitting regex. -/
def isPunctOpt : Option Char → Bool
  | some c => c == '.' || c == '!' || c == '?'
  | none => false

/-- The lookahead `(?=[A-Z])`: the next run starts with an upper-case
letter. -/
def startsUpper : List (List Char) → Bool
  | (a :: _) :: _ => isUpper a
  | _ => false

/-- Prepends a run to the first piece. -/
def consHead (g : List Char) : List (List Char) → List (List Char)
  | [] => [g]
  | h :: t => (g ++ h) :: t

/-- Splitting on `(?<=[.!?])\s+(?=[A-Z])` over the run list: a separator
match always consumes a maximal whitespace run (no shorter prefix of the
run can satisfy the `[A-Z]` lookahead, as whitespace is not upper-case),
preceded by `.`, `!` or `?` and followed by an upper-case letter.  `prev`
is the character just before the current position. -/
def sentPieces : Option Char → List (List Char) → List (List Char)
  | _, [] => [[]]
  | prev, run :: rest =>
    if isWSRun run && isPunctOpt prev && startsUpper rest then
      [] :: sentPieces run.getLast? rest
    else
      consHead run (sentPieces run.getLast? rest)

/-- `re.split(r'(?<=[.!?])\s+(?=[A-Z])', text)`. -/
def sentSplit (text : List Char) : List (List Char) :=
  sentPieces none (charRuns text)

/-- Python `str.split()`: the maximal non-whitespace runs. -/
def pyWords (text : List Char) : List (List Char) :=
  (charRuns text).filter (fun g => !isWSRun g)

/-- `" ".join(words)`. -/
def joinWords : List (List Char) → List Char
  | [] => []
  | [w] => w
  | w :: x :: ws => w ++ ' ' :: joinWords (x :: ws)

/-- The word-grouping fallback loop of `_split_into_sentences`: append each
word, add `len(word) + 1` to the running length, and flush a group once the
running length reaches `1000`. -/
def wordGroupsAux : List (List Char) → List (List Char) → Nat → List (List Char)
  | [], cur, _ => if cur.isEmpty then [] else [joinWords cur]
  | w :: ws, cur, len =>
    if 1000 ≤ len + w.length + 1 then
      joinWords (cur ++ [w]) :: wordGroupsAux ws [] 0
    else
      wordGroupsAux ws (cur ++ [w]) (len + w.length + 1)

/-- `rag/chunker.py`, `_split_into_sentences`: regex sentence split, with
the fixed-size word-grouping fallback when no boundary was found in a very
long text, and a strip-and-drop cleanup otherwise. -/
def split_into_sentences (text : List Char) : List (List Char) :=
  if (sentSplit text).length = 1 ∧ 1500 < text.length then
    wordGroupsAux (pyWords text) [] 0
  else
    ((sentSplit text).filter (fun s => !(pyStrip s).isEmpty)).map pyStrip

/-- `text.split('\n\n')`: split on the two-character separator, leftmost
first. -/
def splitPar : List Char → List (List Char)
  | [] => [[]]
  | [c] => [[c]]
  | c :: d :: rest =>
    if c = '\n' ∧ d = '\n' then [] :: splitPar rest
    else
      match splitPar (d :: rest) with
      | h :: t => (c :: h) :: t
      | [] => [[c]]

/-- Rejoins what `splitPar` cut apart. -/
def joinPar : List (List Char) → List Char
  | [] => []
  | [p] => p
  | p :: q :: ps => p ++ '\n' :: '\n' :: joinPar (q :: ps)

/-- Python `s[-k:]` for `k = overlap`: for `k = 0` this is the whole
string, not the empty one. -/
def pySliceLast (s : List Char) (k : Nat) : List Char :=
  if k = 0 then s else s.drop (s.length - k)

/-- The overlap tail kept after flushing a chunk body `b`:
`b[-overlap:] if len(b) > overlap else b`. -/
def tailOf (b : List Char) (overlap : Nat) : List Char :=
  if overlap < b.length then pySliceLast b overlap else b

/-- The mutable state of the chunking loops: the `(tail, body)` pairs
flushed so far (each yielded chunk is `strip(tail ++ body)`), the pending
overlap tail, and the accumulation buffer (`current_chunk` in the
paragraph loop, `sentence_chunk` in the sentence loop). -/
structure ChunkAcc where
  parts : List (List Char × List Char)
  tail : List Char
  buf : List Char

/-- One step of the sentence loop of `create_chunks`. -/
def sentStep (maxChars overlap : Nat) (st : ChunkAcc) (sent : List Char) : ChunkAcc :=
  if st.buf.length + sent.length + 1 ≤ maxChars then
    { st with buf := if st.buf.isEmpty then sent else st.buf ++ ' ' :: sent }
  else if st.buf.isEmpty then
    { st with buf := sent }
  else
    ⟨st.parts ++ [(st.tail, st.buf)], tailOf st.buf overlap, sent⟩

/-- One step of the paragraph loop of `create_chunks`: skip blank
paragraphs, greedily grow the buffer, otherwise flush it and either
sentence-split an oversized paragraph or restart the buffer. -/
def paraStep (maxChars overlap : Nat) (st : ChunkAcc) (para0 : List Char) : ChunkAcc :=
  if (pyStrip para0).isEmpty then st
  else if st.buf.length + (pyStrip para0).length + 2 ≤ maxChars then
    { st with
      buf := if st.buf.isEmpty then pyStrip para0
             else st.buf ++ '\n' :: '\n' :: pyStrip para0 }
  else
    if maxChars < (pyStrip para0).length then
      (split_into_sentences (pyStrip para0)).foldl (sentStep maxChars overlap)
        (if st.buf.isEmpty then st
         else ⟨st.parts ++ [(st.tail, st.buf)], tailOf st.buf overlap, []⟩)
    else
      { parts := (if st.buf.isEmpty then st
                  else ⟨st.parts ++ [(st.tail, st.buf)], tailOf st.buf overlap, []⟩).parts,
        tail := (if st.buf.isEmpty then st
                 else ⟨st.parts ++ [(st.tail, st.buf)], tailOf st.buf overlap, []⟩).tail,
        buf := pyStrip para0 }

/-- The `(tail, body)` pairs of the chunks yielded by `create_chunks`, in
order: run the paragraph loop and flush the final non-empty buffer. -/
def chunkParts (text : List Char) (maxChars overlap : Nat) :
    List (List Char × List Char) :=
  if (pyStrip text).isEmpty then []
  else
    ((splitPar text).foldl (paraStep maxChars overlap) ⟨[], [], []⟩).parts ++
      (if ((splitPar text).foldl (paraStep maxChars overlap) ⟨[], [], []⟩).buf.isEmpty
       then []
       else [(((splitPar text).foldl (paraStep maxChars overlap) ⟨[], [], []⟩).tail,
              ((splitPar text).foldl (paraStep maxChars overlap) ⟨[], [], []⟩).buf)])

/-- `rag/chunker.py`, `create_chunks`: every yielded chunk is
`(previous_chunk_tail + body).strip()`. -/
def create_chunks (text : List Char) (maxChars overlap : Nat) : List (List Char) :=
  (chunkParts text maxChars overlap).map (fun p => pyStrip (p.1 ++ p.2))

/-- The non-whitespace characters of a text, in order. -/
def nonWS (l : List Char) : List Char :=
  l.filter (fun c => !isWS c)

theorem nonWS_append (a b : List Char) : nonWS (a ++ b) = nonWS a ++ nonWS b := by
  simp [nonWS]

theorem nonWS_cons_ws (c : Char) (l : List Char) (h : isWS c = true) :
    nonWS (c :: l) = nonWS l := by
  simp [nonWS, h]

theorem nonWS_dropWhile (l : List Char) : nonWS (l.dropWhile isWS) = nonWS l := by
  induction l with
  | nil => rfl
  | cons c t ih =>
    rw [List.dropWhile_cons]
    by_cases h : isWS c
    · rw [if_pos h, ih, nonWS_cons_ws c t h]
    · rw [if_neg h]

theorem nonWS_reverse (l : List Char) : nonWS l.reverse = (nonWS l).reverse := by
  simp [nonWS]

theorem nonWS_pyStrip (l : List Char) : nonWS (pyStrip l) = nonWS l := by
  rw [pyStrip, nonWS_reverse, nonWS_dropWhile, nonWS_reverse, List.reverse_reverse,
    nonWS_dropWhile]

theorem pyStrip_nil_nonWS (l : List Char) (h : pyStrip l = []) : nonWS l = [] := by
  rw [← nonWS_pyStrip, h]
  rfl

theorem length_dropWhile_le (p : Char → Bool) (l : List Char) :
    (l.dropWhile p).length ≤ l.length := by
  induction l with
  | nil => exact le_rfl
  | cons c t ih =>
    rw [List.dropWhile_cons]
    by_cases h : p c
    · rw [if_pos h]
      exact ih.trans (by simp)
    · rw [if_neg h]

theorem pyStrip_length_le (l : List Char) : (pyStrip l).length ≤ l.length := by
  rw [pyStrip, List.length_reverse]
  calc ((l.dropWhile isWS).reverse.dropWhile isWS).length
      ≤ (l.dropWhile isWS).reverse.length := length_dropWhile_le _ _
    _ = (l.dropWhile isWS).length := List.length_reverse _
    _ ≤ l.length := length_dropWhile_le _ _

theorem charRuns_flatten (l : List Char) : (charRuns l).flatten = l := by
  induction l with
  | nil => rfl
  | cons c rest ih =>
    rw [charRuns]
    cases hr : charRuns rest with
    | nil =>
      rw [hr] at ih
      simp at ih
      simp [ih]
    | cons g gs =>
      cases g with
      | nil =>
        rw [hr] at ih
        simp at ih
        simp [ih]
      | cons d g2 =>
        rw [hr] at ih
        by_cases hb : isWS c == isWS d
        · simp only [hb, if_true]
          simp only [List.flatten_cons] at ih ⊢
          simp [ih]
        · simp only [hb, if_false]
          simp only [List.flatten_cons] at ih ⊢
          simp [ih]

theorem charRuns_homog (l : List Char) :
    ∀ g ∈ charRuns l, ∀ a ∈ g, isWS a = isWSRun g := by
  induction l with
  | nil => intro g hg; simp [charRuns] at hg
  | cons c rest ih =>
    rw [charRuns]
    cases hr : charRuns rest with
    | nil =>
      intro g hg a ha
      simp at hg
      subst hg
      simp at ha
      subst ha
      rfl
    | cons g0 gs =>
      cases g0 with
      | nil =>
        intro g hg a ha
        rcases List.mem_cons.mp hg with h | h
        · subst h
          simp at ha
          subst ha
          rfl
        · exact ih g (hr ▸ h) a ha
      | cons d g2 =>
        by_cases hb : isWS c == isWS d
        · simp only [hb, if_true]
          intro g hg a ha
          rcases List.mem_cons.mp hg with h | h
          · subst h
            rcases List.mem_cons.mp ha with h2 | h2
            · subst h2; rfl
            · have hmem : (d :: g2) ∈ charRuns rest := hr ▸ List.mem_cons_self _ _
              have := ih (d :: g2) hmem a h2
              have hcd : isWS c = isWS d := by simpa using hb
              simp only [isWSRun] at this ⊢
              rw [this, hcd]
          · have hmem : g ∈ charRuns rest := hr ▸ List.mem_cons_of_mem _ h
            exact ih g hmem a ha
        · simp only [hb, if_false]
          intro g hg a ha
          rcases List.mem_cons.mp hg with h | h
          · subst h
            simp at ha
            subst ha
            rfl
          · exact ih g (hr ▸ h) a ha

theorem nonWS_of_wsRun (g : List Char) (hg : ∀ a ∈ g, isWS a = isWSRun g)
    (hws : isWSRun g = true) : nonWS g = [] := by
  rw [nonWS, List.filter_eq_nil_iff]
  intro a ha
  rw [hg a ha, hws]
  decide

theorem flatten_map_nonWS (rs : List (List Char)) :
    (rs.map nonWS).flatten = nonWS rs.flatten := by
  induction rs with
  | nil => rfl
  | cons g gs ih => simp [ih, nonWS_append]

theorem consHead_nonWS (g : List Char) (ps : List (List Char)) :
    ((consHead g ps).map nonWS).flatten = nonWS g ++ (ps.map nonWS).flatten := by
  cases ps with
  | nil => simp [consHead]
  | cons h t => simp [consHead, nonWS_append]

theorem sentPieces_nonWS (rs : List (List Char)) :
    ∀ prev, (∀ g ∈ rs, ∀ a ∈ g, isWS a = isWSRun g) →
    ((sentPieces prev rs).map nonWS).flatten = nonWS rs.flatten := by
  induction rs with
  | nil => intro prev _; simp [sentPieces, nonWS]
  | cons run rest ih =>
    intro prev hg
    rw [sentPieces]
    have hrest : ∀ g ∈ rest, ∀ a ∈ g, isWS a = isWSRun g :=
      fun g h => hg g (List.mem_cons_of_mem _ h)
    by_cases hb : (isWSRun run && isPunctOpt prev && startsUpper rest) = true
    · rw [if_pos hb]
      have hws : isWSRun run = true := by
        simp only [Bool.and_eq_true] at hb
        exact hb.1.1
      have hrun : nonWS run = [] :=
        nonWS_of_wsRun run (hg run (List.mem_cons_self _ _)) hws
      calc ((List.map nonWS ([] :: sentPieces run.getLast? rest)).flatten)
          = (List.map nonWS (sentPieces run.getLast? rest)).flatten := by
            simp [show nonWS [] = [] from rfl]
        _ = nonWS rest.flatten := ih run.getLast? hrest
        _ = nonWS (run :: rest).flatten := by simp [nonWS_append, hrun]
    · rw [if_neg hb, consHead_nonWS, ih run.getLast? hrest]
      simp [nonWS_append]

theorem sentSplit_nonWS (l : List Char) :
    ((sentSplit l).map nonWS).flatten = nonWS l := by
  rw [sentSplit, sentPieces_nonWS _ none (charRuns_homog l), charRuns_flatten]

theorem flatten_map_nonWS_filter (p : List Char → Bool) (rs : List (List Char))
    (h : ∀ g ∈ rs, p g = false → nonWS g = []) :
    ((rs.filter p).map nonWS).flatten = (rs.map nonWS).flatten := by
  induction rs with
  | nil => rfl
  | cons g gs ih =>
    rw [List.filter_cons]
    by_cases hp : p g
    · rw [if_pos hp]
      simp [ih (fun g2 h2 => h g2 (List.mem_cons_of_mem _ h2))]
    · rw [if_neg hp]
      have h0 : nonWS g = [] := h g (List.mem_cons_self _ _) (by simpa using hp)
      simp [ih (fun g2 h2 => h g2 (List.mem_cons_of_mem _ h2)), h0]

theorem pyWords_nonWS (l : List Char) :
    ((pyWords l).map nonWS).flatten = nonWS l := by
  rw [pyWords, flatten_map_nonWS_filter _ _ ?_, flatten_map_nonWS, charRuns_flatten]
  intro g hg hws
  exact nonWS_of_wsRun g (charRuns_homog l g hg) (by simpa using hws)

theorem joinWords_nonWS : ∀ ws : List (List Char),
    nonWS (joinWords ws) = (ws.map nonWS).flatten
  | [] => rfl
  | [w] => by simp [joinWords]
  | w :: x :: ws => by
    rw [joinWords, nonWS_append, nonWS_cons_ws ' ' _ (by decide),
      joinWords_nonWS (x :: ws)]
    simp

theorem wordGroupsAux_nonWS : ∀ (ws cur : List (List Char)) (n : Nat),
    ((wordGroupsAux ws cur n).map nonWS).flatten
      = (cur.map nonWS).flatten ++ (ws.map nonWS).flatten := by
  intro ws
  induction ws with
  | nil =>
    intro cur n
    rw [wordGroupsAux]
    by_cases h : cur.isEmpty
    · have : cur = [] := List.isEmpty_iff.mp h
      simp [h, this]
    · simp [h, joinWords_nonWS]
  | cons w rest ih =>
    intro cur n
    rw [wordGroupsAux]
    by_cases h : 1000 ≤ n + w.length + 1
    · rw [if_pos h]
      simp [joinWords_nonWS, ih [] 0, List.append_assoc]
    · rw [if_neg h, ih (cur ++ [w]) (n + w.length + 1)]
      simp [List.append_assoc]

theorem splitSent_nonWS (t : List Char) :
    ((split_into_sentences t).map nonWS).flatten = nonWS t := by
  rw [split_into_sentences]
  by_cases hc : (sentSplit t).length = 1 ∧ 1500 < t.length
  · rw [if_pos hc, wordGroupsAux_nonWS, pyWords_nonWS]
    simp
  · rw [if_neg hc, List.map_map]
    have hfn : (nonWS ∘ pyStrip) = nonWS := funext nonWS_pyStrip
    rw [hfn, flatten_map_nonWS_filter _ _ ?_, sentSplit_nonWS]
    intro g _ hgp
    refine pyStrip_nil_nonWS g (List.isEmpty_iff.mp (by simpa using hgp))

theorem splitPar_ne_nil : ∀ l : List Char, splitPar l ≠ []
  | [] => by simp [splitPar]
  | [c] => by simp [splitPar]
  | c :: d :: rest => by
    rw [splitPar]
    by_cases h : c = '\n' ∧ d = '\n'
    · simp [h]
    · rw [if_neg h]
      cases hs : splitPar (d :: rest) with
      | nil => simp
      | cons a t => simp

theorem joinPar_splitPar : ∀ l : List Char, joinPar (splitPar l) = l
  | [] => rfl
  | [c] => rfl
  | c :: d :: rest => by
    rw [splitPar]
    by_cases h : c = '\n' ∧ d = '\n'
    · rw [if_pos h]
      obtain ⟨h1, h2⟩ := h
      subst h1
      subst h2
      have ih := joinPar_splitPar rest
      cases hs : splitPar rest with
      | nil => exact absurd hs (splitPar_ne_nil rest)
      | cons a t =>
        rw [hs] at ih
        rw [joinPar, ih, List.nil_append]
    · rw [if_neg h]
      have ih := joinPar_splitPar (d :: rest)
      cases hs : splitPar (d :: rest) with
      | nil => exact absurd hs (splitPar_ne_nil _)
      | cons a t =>
        rw [hs] at ih
        cases t with
        | nil =>
          rw [joinPar] at ih ⊢
          rw [ih]
        | cons b t2 =>
          rw [joinPar] at ih ⊢
          rw [List.cons_append, ih]

theorem joinPar_nonWS : ∀ ps : List (List Char),
    nonWS (joinPar ps) = (ps.map nonWS).flatten
  | [] => rfl
  | [p] => by simp [joinPar]
  | p :: q :: ps => by
    rw [joinPar, nonWS_append, nonWS_cons_ws '\n' _ (by decide),
      nonWS_cons_ws '\n' _ (by decide), joinPar_nonWS (q :: ps)]
    simp

theorem nonWS_splitPar (l : List Char) :
    ((splitPar l).map nonWS).flatten = nonWS l := by
  conv_rhs => rw [← joinPar_splitPar l]
  rw [joinPar_nonWS]

/-- The non-whitespace characters of the chunk bodies, with the duplicated
overlap tails excluded. -/
def partsNW (ps : List (List Char × List Char)) : List Char :=
  (ps.map (fun p => nonWS p.2)).flatten

theorem partsNW_append (a b : List (List Char × List Char)) :
    partsNW (a ++ b) = partsNW a ++ partsNW b := by
  simp [partsNW]

theorem sentStep_nw (m o : Nat) (st : ChunkAcc) (sent : List Char) :
    partsNW (sentStep m o st sent).parts ++ nonWS (sentStep m o st sent).buf
      = partsNW st.parts ++ (nonWS st.buf ++ nonWS sent) := by
  rw [sentStep]
  by_cases h1 : st.buf.length + sent.length + 1 ≤ m
  · rw [if_pos h1]
    by_cases h2 : st.buf.isEmpty
    · have hb : st.buf = [] := List.isEmpty_iff.mp h2
      simp [h2, hb, show nonWS [] = [] from rfl]
    · simp [h2, nonWS_append, nonWS_cons_ws ' ' _ (by decide)]
  · rw [if_neg h1]
    by_cases h2 : st.buf.isEmpty
    · have hb : st.buf = [] := List.isEmpty_iff.mp h2
      simp [h2, hb, show nonWS [] = [] from rfl]
    · simp [h2, partsNW_append, partsNW, List.append_assoc]

theorem sentFold_nw (m o : Nat) (sents : List (List Char)) :
    ∀ st : ChunkAcc,
    partsNW (sents.foldl (sentStep m o) st).parts
        ++ nonWS (sents.foldl (sentStep m o) st).buf
      = partsNW st.parts ++ (nonWS st.buf ++ (sents.map nonWS).flatten) := by
  induction sents with
  | nil => intro st; simp
  | cons sh t ih =>
    intro st
    rw [List.foldl_cons, ih, ← List.append_assoc, sentStep_nw]
    simp [List.append_assoc]

theorem paraStep_nw (m o : Nat) (st : ChunkAcc) (para0 : List Char) :
    partsNW (paraStep m o st para0).parts ++ nonWS (paraStep m o st para0).buf
      = partsNW st.parts ++ (nonWS st.buf ++ nonWS para0) := by
  rw [paraStep]
  by_cases h0 : (pyStrip para0).isEmpty
  · rw [if_pos h0]
    have h0n : nonWS para0 = [] := pyStrip_nil_nonWS _ (List.isEmpty_iff.mp h0)
    simp [h0n]
  · rw [if_neg h0]
    by_cases h1 : st.buf.length + (pyStrip para0).length + 2 ≤ m
    · rw [if_pos h1]
      by_cases h2 : st.buf.isEmpty
      · have hb : st.buf = [] := List.isEmpty_iff.mp h2
        simp [h2, hb, nonWS_pyStrip, show nonWS [] = [] from rfl]
      · simp [h2, nonWS_append, nonWS_pyStrip,
          nonWS_cons_ws '\n' _ (by decide), List.append_assoc]
    · rw [if_neg h1]
      by_cases hsz : m < (pyStrip para0).length
      · rw [if_pos hsz, sentFold_nw, splitSent_nonWS, nonWS_pyStrip]
        by_cases h2 : st.buf.isEmpty
        · have hb : st.buf = [] := List.isEmpty_iff.mp h2
          simp [h2, hb, show nonWS [] = [] from rfl]
        · simp [h2, partsNW_append, partsNW, show nonWS [] = [] from rfl,
            List.append_assoc]
      · rw [if_neg hsz]
        by_cases h2 : st.buf.isEmpty
        · have hb : st.buf = [] := List.isEmpty_iff.mp h2
          simp [h2, hb, nonWS_pyStrip, show nonWS [] = [] from rfl]
        · simp [h2, partsNW_append, partsNW, nonWS_pyStrip, List.append_assoc]

theorem paraFold_nw (m o : Nat) (ps : List (List Char)) :
    ∀ st : ChunkAcc,
    partsNW (ps.foldl (paraStep m o) st).parts
        ++ nonWS (ps.foldl (paraStep m o) st).buf
      = partsNW st.parts ++ (nonWS st.buf ++ (ps.map nonWS).flatten) := by
  induction ps with
  | nil => intro st; simp
  | cons p t ih =>
    intro st
    rw [List.foldl_cons, ih, ← List.append_assoc, paraStep_nw]
    simp [List.append_assoc]

theorem chunkParts_nw (text : List Char) (m o : Nat) :
    partsNW (chunkParts text m o) = nonWS text := by
  rw [chunkParts]
  by_cases h : (pyStrip text).isEmpty
  · rw [if_pos h]
    have := pyStrip_nil_nonWS text (List.isEmpty_iff.mp h)
    simp [partsNW, this]
  · rw [if_neg h, partsNW_append]
    have hfold := paraFold_nw m o (splitPar text) ⟨[], [], []⟩
    rw [nonWS_splitPar] at hfold
    simp only [partsNW, List.map_nil, List.flatten_nil, List.nil_append,
      show nonWS [] = [] from rfl] at hfold
    by_cases hb : ((splitPar text).foldl (paraStep m o) ⟨[], [], []⟩).buf.isEmpty
    · have hb0 : ((splitPar text).foldl (paraStep m o) ⟨[], [], []⟩).buf = [] :=
        List.isEmpty_iff.mp hb
      rw [hb0, show nonWS [] = [] from rfl, List.append_nil] at hfold
      simp [hb, partsNW, hfold]
    · rw [if_neg hb]
      rw [← hfold]
      simp [partsNW]

/-- Claim C7 counterexample: for the input `" a"` the single yielded chunk
is `"a"`; the leading space of the input occurs in no chunk at all, so the
concatenation of the chunks does not cover every character of the input. -/
theorem spec_C7_cex :
    create_chunks (" a".toList) 10 2 = [['a']]
    ∧ ' ' ∈ " a".toList
    ∧ ¬ ' ' ∈ (create_chunks (" a".toList) 10 2).flatten := by
  decide

/-- Claim C7 (amended): every chunk yielded by `create_chunks` is
`strip(tail ++ body)` for the corresponding `(tail, body)` pair of
`chunkParts`, where `tail` is the duplicated overlap carried from the
previous chunk; and the concatenation of the bodies preserves exactly the
non-whitespace characters of the input, in order.  Whitespace (paragraph
separators, inter-sentence spacing, leading and trailing whitespace) may
be dropped or normalised, which is what refutes the unamended claim. -/
theorem spec_C7_coverage (text : List Char) (maxChars overlap : Nat) :
    create_chunks text maxChars overlap
      = (chunkParts text maxChars overlap).map (fun p => pyStrip (p.1 ++ p.2))
    ∧ partsNW (chunkParts text maxChars overlap) = nonWS text :=
  ⟨rfl, chunkParts_nw text maxChars overlap⟩

/-- `s` is one of the sentences produced by `_split_into_sentences` for
some paragraph of the input text (word-grouping fallback groups included). -/
def sentenceOf (text : List Char) (s : List Char) : Prop :=
  ∃ p ∈ splitPar text, s ∈ split_into_sentences (pyStrip p)

/-- A chunk body is fine when it is within `maxChars`, or is a single
oversized sentence. -/
def bufOK (text : List Char) (m : Nat) (b : List Char) : Prop :=
  b.length ≤ m ∨ (m < b.length ∧ sentenceOf text b)

/-- Loop invariant of the chunking state: the pending tail is at most
`overlap` long, the buffer is fine, and every flushed part has a tail of
at most `overlap` characters and a fine body. -/
def accOK (text : List Char) (m o : Nat) (st : ChunkAcc) : Prop :=
  st.tail.length ≤ o ∧ bufOK text m st.buf
    ∧ ∀ p ∈ st.parts, p.1.length ≤ o ∧ bufOK text m p.2

theorem pySliceLast_length_le (b : List Char) (k : Nat) (hk : k ≠ 0) :
    (pySliceLast b k).length ≤ k := by
  rw [pySliceLast, if_neg hk, List.length_drop]
  omega

theorem tailOf_length_le (b : List Char) (o : Nat) (ho : 1 ≤ o) :
    (tailOf b o).length ≤ o := by
  rw [tailOf]
  by_cases h : o < b.length
  · rw [if_pos h]
    exact pySliceLast_length_le b o (by omega)
  · rw [if_neg h]
    omega

theorem bufOK_nil (text : List Char) (m : Nat) : bufOK text m [] :=
  Or.inl (by simp)

theorem sentStep_ok (text : List Char) (m o : Nat) (ho : 1 ≤ o) (st : ChunkAcc)
    (sent : List Char) (hs : sentenceOf text sent) (h : accOK text m o st) :
    accOK text m o (sentStep m o st sent) := by
  obtain ⟨ht, hb, hp⟩ := h
  have hsent : bufOK text m sent := by
    rcases le_or_lt sent.length m with hle | hlt
    · exact Or.inl hle
    · exact Or.inr ⟨hlt, hs⟩
  rw [sentStep]
  by_cases h1 : st.buf.length + sent.length + 1 ≤ m
  · rw [if_pos h1]
    refine ⟨ht, ?_, hp⟩
    show bufOK text m (if st.buf.isEmpty then sent else st.buf ++ ' ' :: sent)
    by_cases h2 : st.buf.isEmpty
    · rw [if_pos h2]
      exact Or.inl (by omega)
    · rw [if_neg h2]
      refine Or.inl ?_
      simp only [List.length_append, List.length_cons]
      omega
  · rw [if_neg h1]
    by_cases h2 : st.buf.isEmpty
    · rw [if_pos h2]
      exact ⟨ht, hsent, hp⟩
    · rw [if_neg h2]
      refine ⟨tailOf_length_le _ _ ho, hsent, ?_⟩
      intro p hp2
      rcases List.mem_append.mp hp2 with hin | hin
      · exact hp p hin
      · rw [List.mem_singleton.mp hin]
        exact ⟨ht, hb⟩

theorem sentFold_ok (text : List Char) (m o : Nat) (ho : 1 ≤ o)
    (sents : List (List Char)) :
    ∀ st : ChunkAcc, (∀ s ∈ sents, sentenceOf text s) → accOK text m o st →
      accOK text m o (sents.foldl (sentStep m o) st) := by
  induction sents with
  | nil => intro st _ h; exact h
  | cons sh t ih =>
    intro st hs h
    rw [List.foldl_cons]
    exact ih _ (fun s h2 => hs s (List.mem_cons_of_mem _ h2))
      (sentStep_ok text m o ho st sh (hs sh (List.mem_cons_self _ _)) h)

theorem flushState_ok (text : List Char) (m o : Nat) (ho : 1 ≤ o) (st : ChunkAcc)
    (h : accOK text m o st) :
    accOK text m o
      (if st.buf.isEmpty then st
       else ⟨st.parts ++ [(st.tail, st.buf)], tailOf st.buf o, []⟩) := by
  obtain ⟨ht, hb, hp⟩ := h
  by_cases h2 : st.buf.isEmpty
  · rw [if_pos h2]
    exact ⟨ht, hb, hp⟩
  · rw [if_neg h2]
    refine ⟨tailOf_length_le _ _ ho, bufOK_nil text m, ?_⟩
    intro p hp2
    rcases List.mem_append.mp hp2 with hin | hin
    · exact hp p hin
    · rw [List.mem_singleton.mp hin]
      exact ⟨ht, hb⟩

theorem paraStep_ok (text : List Char) (m o : Nat) (ho : 1 ≤ o) (st : ChunkAcc)
    (para0 : List Char) (hpp : para0 ∈ splitPar text) (h : accOK text m o st) :
    accOK text m o (paraStep m o st para0) := by
  have hflush := flushState_ok text m o ho st h
  obtain ⟨ht, hb, hp⟩ := h
  rw [paraStep]
  by_cases h0 : (pyStrip para0).isEmpty
  · rw [if_pos h0]
    exact ⟨ht, hb, hp⟩
  · rw [if_neg h0]
    by_cases h1 : st.buf.length + (pyStrip para0).length + 2 ≤ m
    · rw [if_pos h1]
      refine ⟨ht, ?_, hp⟩
      show bufOK text m
        (if st.buf.isEmpty then pyStrip para0
         else st.buf ++ '\n' :: '\n' :: pyStrip para0)
      by_cases h2 : st.buf.isEmpty
      · rw [if_pos h2]
        exact Or.inl (by omega)
      · rw [if_neg h2]
        refine Or.inl ?_
        simp only [List.length_append, List.length_cons]
        omega
    · rw [if_neg h1]
      by_cases hsz : m < (pyStrip para0).length
      · rw [if_pos hsz]
        exact sentFold_ok text m o ho _ _
          (fun s h2 => ⟨para0, hpp, h2⟩) hflush
      · rw [if_neg hsz]
        obtain ⟨ht1, hb1, hp1⟩ := hflush
        refine ⟨ht1, ?_, hp1⟩
        show bufOK text m (pyStrip para0)
        exact Or.inl (by omega)

theorem paraFold_ok (text : List Char) (m o : Nat) (ho : 1 ≤ o)
    (ps : List (List Char)) :
    ∀ st : ChunkAcc, (∀ p ∈ ps, p ∈ splitPar text) → accOK text m o st →
      accOK text m o (ps.foldl (paraStep m o) st) := by
  induction ps with
  | nil => intro st _ h; exact h
  | cons p t ih =>
    intro st hs h
    rw [List.foldl_cons]
    exact ih _ (fun q h2 => hs q (List.mem_cons_of_mem _ h2))
      (paraStep_ok text m o ho st p (hs p (List.mem_cons_self _ _)) h)

theorem chunkParts_ok (text : List Char) (m o : Nat) (ho : 1 ≤ o) :
    ∀ p ∈ chunkParts text m o, p.1.length ≤ o ∧ bufOK text m p.2 := by
  rw [chunkParts]
  by_cases h : (pyStrip text).isEmpty
  · rw [if_pos h]
    intro p hp
    exact absurd hp (List.not_mem_nil p)
  · rw [if_neg h]
    obtain ⟨ht, hb, hp⟩ :=
      paraFold_ok text m o ho (splitPar text) ⟨[], [], []⟩ (fun p hp => hp)
        ⟨by simp, bufOK_nil text m, by simp⟩
    intro p hp2
    rcases List.mem_append.mp hp2 with hin | hin
    · exact hp p hin
    · by_cases hbuf : ((splitPar text).foldl (paraStep m o) ⟨[], [], []⟩).buf.isEmpty
      · rw [if_pos hbuf] at hin
        exact absurd hin (List.not_mem_nil p)
      · rw [if_neg hbuf] at hin
        rw [List.mem_singleton.mp hin]
        exact ⟨ht, hb⟩

/-- Claim C6 counterexample at `overlap = 0`: Python `current_chunk[-0:]`
is the whole string, so the second chunk is the entire first chunk glued
to the second body.  It has length `8 > maxChars + overlap = 4`, and no
sentence of any paragraph exceeds `maxChars = 4`, so the oversized-single-
sentence exception does not apply: the claim fails for `overlap = 0`. -/
theorem spec_C6_cex :
    create_chunks ("aaaa\n\nbbbb".toList) 4 0
      = ["aaaa".toList, "aaaabbbb".toList]
    ∧ ¬(("aaaabbbb".toList).length ≤ 4 + 0)
    ∧ (∀ p ∈ splitPar ("aaaa\n\nbbbb".toList),
        ∀ s ∈ split_into_sentences (pyStrip p), s.length ≤ 4) := by
  decide

/-- Claim C6 (amended to `overlap ≥ 1`): every chunk yielded by
`create_chunks` has length at most `maxChars + overlap`, except chunks
whose body is a single sentence longer than `maxChars` (including the
groups of the fixed-size word-grouping fallback, which enter the chunking
loop as sentences); such a chunk is at most `overlap` plus the length of
that sentence. -/
theorem spec_C6_bound (text : List Char) (maxChars overlap : Nat)
    (ho : 1 ≤ overlap) (c : List Char)
    (hc : c ∈ create_chunks text maxChars overlap) :
    c.length ≤ maxChars + overlap
    ∨ ∃ s, (maxChars < s.length ∧ sentenceOf text s)
        ∧ c.length ≤ overlap + s.length := by
  rw [create_chunks] at hc
  obtain ⟨p, hp, rfl⟩ := List.mem_map.mp hc
  obtain ⟨h1, h2⟩ := chunkParts_ok text maxChars overlap ho p hp
  have hlen : (pyStrip (p.1 ++ p.2)).length ≤ p.1.length + p.2.length := by
    have := pyStrip_length_le (p.1 ++ p.2)
    rw [List.length_append] at this
    exact this
  rcases h2 with hle | ⟨hgt, hsent⟩
  · left
    omega
  · right
    exact ⟨p.2, ⟨hgt, hsent⟩, by omega⟩

/-- Witness for C6 at the text `"ab"` with `maxChars = 5`, `overlap = 1`. -/
theorem spec_C6_witness :
    ("ab".toList).length ≤ 5 + 1
    ∨ ∃ s, (5 < s.length ∧ sentenceOf ("ab".toList) s)
        ∧ ("ab".toList).length ≤ 1 + s.length :=
  spec_C6_bound ("ab".toList) 5 1 (by decide) ("ab".toList) (by decide)
